import Mathlib

/-!
Shallow embedding of the rotating, length-prefixed binary append log
implemented in `src/simple_logger.py` and `src/utilities.py`.

Python strings are modelled as lists of Unicode code points (`PyStr`),
bytes as lists of naturals below 256.  The filesystem owned by one
logger instance is modelled explicitly inside `LogState`: the active
file is a byte list and each rollover backup is a pair of its numeric
sequence suffix and its byte content.  All machine arithmetic is `Nat`
with explicit bounds (the 4-byte length field overflows at 2^32, as
`int.to_bytes(4, "big")` does).
-/

namespace SimpleLogger

/-- Payloads are Python strings: sequences of Unicode code points
(including, as in CPython, unpaired surrogates). -/
abbrev PyStr := List Nat

/-- Code points representable in a Python `str`. -/
def validCp (c : Nat) : Prop := c < 0x110000

/-- Surrogate code points: not encodable to UTF-8. -/
def isSurrogate (c : Nat) : Bool := decide (0xD800 ≤ c) && decide (c ≤ 0xDFFF)

/-- Scalar-value strings: every code point is a valid non-surrogate code point. -/
def scalarStr (p : PyStr) : Prop := ∀ c ∈ p, validCp c ∧ isSurrogate c = false

instance (c : Nat) : Decidable (validCp c) := by
  unfold validCp
  infer_instance

instance (p : PyStr) : Decidable (scalarStr p) := by
  unfold scalarStr
  infer_instance

/-! ### Big-endian fixed width integers, as in `int.to_bytes(w, "big")`
and `int.from_bytes(bs, "big")`. -/

/-- Big-endian encoding of `n` into `w` bytes (most significant first);
models `n.to_bytes(w, "big")`, which is only defined for `n < 256 ^ w`. -/
def toBytesBE : Nat → Nat → List Nat
  | 0, _ => []
  | w + 1, n => toBytesBE w (n / 256) ++ [n % 256]

/-- Big-endian decoding, models `int.from_bytes(bs, "big")`. -/
def fromBytesBE (bs : List Nat) : Nat :=
  bs.foldl (fun acc b => acc * 256 + b) 0

/-- UTF-8 encoding of a single code point.  A surrogate cannot be
encoded; with `errors="replace"` CPython substitutes the byte of the
question mark character (0x3F) for each unencodable code point. -/
def encodeCp (c : Nat) : List Nat :=
  if isSurrogate c then [0x3F]
  else if c < 0x80 then [c]
  else if c < 0x800 then [0xC0 + c / 0x40, 0x80 + c % 0x40]
  else if c < 0x10000 then
    [0xE0 + c / 0x1000, 0x80 + c / 0x40 % 0x40, 0x80 + c % 0x40]
  else
    [0xF0 + c / 0x40000, 0x80 + c / 0x1000 % 0x40, 0x80 + c / 0x40 % 0x40,
      0x80 + c % 0x40]

/-- UTF-8 encoding of a whole string, models `s.encode("utf-8", errors="replace")`. -/
def encodeStr (p : PyStr) : List Nat := (p.map encodeCp).flatten

/-- Continuation byte test (0x80 to 0xBF). -/
def isCont (b : Nat) : Bool := decide (0x80 ≤ b) && decide (b ≤ 0xBF)

/-- Lower bound for the first continuation byte of a three-byte
sequence (excludes overlong forms after 0xE0 and surrogates after 0xED). -/
def lo3 (b0 : Nat) : Nat := if b0 = 0xE0 then 0xA0 else 0x80

/-- Upper bound for the first continuation byte of a three-byte sequence. -/
def hi3 (b0 : Nat) : Nat := if b0 = 0xED then 0x9F else 0xBF

/-- Lower bound for the first continuation byte of a four-byte sequence
(excludes overlong forms after 0xF0). -/
def lo4 (b0 : Nat) : Nat := if b0 = 0xF0 then 0x90 else 0x80

/-- Upper bound for the first continuation byte of a four-byte sequence
(excludes code points above 0x10FFFF after 0xF4). -/
def hi4 (b0 : Nat) : Nat := if b0 = 0xF4 then 0x8F else 0xBF

/-- Decoding step for one leading byte `b0` followed by `rest`: returns
the decoded code point and the bytes left over.  Well-formed sequences
decode to their code point; an ill-formed or truncated sequence yields
U+FFFD (the replacement character that `errors="replace"` substitutes).
On ill-formed input decoding resynchronises at the byte after `b0`; the
development below only ever applies the decoder to well-formed encoder
output, on which it agrees exactly with the CPython decoder. -/
def decOne (b0 : Nat) (rest : List Nat) : Nat × List Nat :=
  if b0 < 0x80 then (b0, rest)
  else if 0xC2 ≤ b0 ∧ b0 ≤ 0xDF then
    match rest with
    | b1 :: rest1 =>
      if isCont b1 then ((b0 - 0xC0) * 0x40 + (b1 - 0x80), rest1)
      else (0xFFFD, b1 :: rest1)
    | [] => (0xFFFD, [])
  else if 0xE0 ≤ b0 ∧ b0 ≤ 0xEF then
    match rest with
    | b1 :: b2 :: rest2 =>
      if lo3 b0 ≤ b1 ∧ b1 ≤ hi3 b0 ∧ isCont b2 then
        ((b0 - 0xE0) * 0x1000 + (b1 - 0x80) * 0x40 + (b2 - 0x80), rest2)
      else (0xFFFD, b1 :: b2 :: rest2)
    | _ => (0xFFFD, [])
  else if 0xF0 ≤ b0 ∧ b0 ≤ 0xF4 then
    match rest with
    | b1 :: b2 :: b3 :: rest3 =>
      if lo4 b0 ≤ b1 ∧ b1 ≤ hi4 b0 ∧ isCont b2 ∧ isCont b3 then
        ((b0 - 0xF0) * 0x40000 + (b1 - 0x80) * 0x1000 + (b2 - 0x80) * 0x40 +
          (b3 - 0x80), rest3)
      else (0xFFFD, b1 :: b2 :: b3 :: rest3)
    | _ => (0xFFFD, [])
  else (0xFFFD, rest)

/-- UTF-8 decoding with replacement, models
`bytes.decode("utf-8", errors="replace")`. -/
def utf8Dec : List Nat → List Nat
  | [] => []
  | b0 :: rest => (decOne b0 rest).1 :: utf8Dec (decOne b0 rest).2
termination_by l => l.length
decreasing_by
  simp_wf
  have hlen : (decOne b0 rest).2.length ≤ rest.length := by
    unfold decOne
    repeat' split
    all_goals simp_all
    all_goals omega
  omega

/-- Exceptions that `BinaryLogger.write` can raise: `overflowErr` models
the `OverflowError` from `len(binary_payload).to_bytes(4, "big")` when
the length does not fit in 4 bytes; `closedErr` models
`RuntimeError("Logger is closed and cannot write logs")`. -/
inductive WErr where
  | overflowErr : WErr
  | closedErr : WErr
deriving DecidableEq

/-- Exceptions that `BinaryLogger.__deserialize` can raise: `truncLen`
models `IOError("Corrupted log file: incomplete length prefix")` and
`truncPayload` models `IOError("Corrupted log file: incomplete payload")`. -/
inductive RErr where
  | truncLen : RErr
  | truncPayload : RErr
deriving DecidableEq

/-- Length field width in bytes: `self.length_bytesize = 4`. -/
def length_bytesize : Nat := 4

/-- Model of `BinaryLogger.__serialize`: UTF-8 encode the payload with
replacement and put the 4-byte big-endian length in front.
`len(...).to_bytes(4, "big")` raises `OverflowError` when the length is
at least `256 ^ 4 = 2 ^ 32`. -/
def serialize (payload : PyStr) : Except WErr (List Nat) :=
  let binary_payload := encodeStr payload
  if binary_payload.length < 256 ^ length_bytesize then
    Except.ok (toBytesBE length_bytesize binary_payload.length ++ binary_payload)
  else Except.error WErr.overflowErr

/-- The byte frame written for a payload (defined length prefix plus
encoded payload); `serialize` returns exactly this when it succeeds. -/
def frameOf (payload : PyStr) : List Nat :=
  toBytesBE length_bytesize (encodeStr payload).length ++ encodeStr payload

/-- A payload whose encoded length fits the 4-byte length field. -/
def fits (payload : PyStr) : Prop := (encodeStr payload).length < 256 ^ length_bytesize

instance (p : PyStr) : Decidable (fits p) := by
  unfold fits
  infer_instance

/-- Model of the generator `BinaryLogger.__deserialize`: returns the
payloads yielded before the generator finishes or raises, together with
the raised error if any.  Reading the length prefix yields fewer than 4
bytes only at EOF or on a truncated file; `file_handle.read(length)`
returns at most `length` bytes, and fewer exactly when the remaining
file is shorter than `length`. -/
def deserialize (bs : List Nat) : List PyStr × Option RErr :=
  if _h0 : bs.length = 0 then ([], none)
  else if bs.length < length_bytesize then ([], some RErr.truncLen)
  else
    let length := fromBytesBE (bs.take length_bytesize)
    let rest := bs.drop length_bytesize
    if rest.length < length then ([], some RErr.truncPayload)
    else
      let out := deserialize (rest.drop length)
      (utf8Dec (rest.take length) :: out.1, out.2)
termination_by bs.length
decreasing_by
  simp_wf
  simp only [List.length_drop, length_bytesize]
  omega

/-- The byte content of a file holding exactly the frames of `qs`. -/
def bytesOfPayloads (qs : List PyStr) : List Nat := (qs.map frameOf).flatten

/-- A file name as its dot-separated segments. -/
abbrev FileName := List String

/-- Segments of `Path(name).stem`: the name without its final suffix. -/
def stemOf (n : FileName) : FileName :=
  if 2 ≤ n.length then n.dropLast else n

/-- The suffix segment of `Path(name).suffix` or `none` when the name
has no suffix. -/
def suffixOf (n : FileName) : Option String :=
  if 2 ≤ n.length then n.getLast? else none

/-- Segment-level reading of `fnmatch(name, stem ++ ".*" ++ suffix)`,
the glob built from `file_path.with_suffix(f".*{file_path.suffix}")`. -/
def globMatches (active n : FileName) : Bool :=
  match suffixOf active with
  | some e =>
    decide ((stemOf active).length + 2 ≤ n.length) &&
    decide (n.take (stemOf active).length = stemOf active) &&
    decide (n.getLast? = some e)
  | none =>
    decide (active.length + 1 ≤ n.length) &&
    decide (n.take active.length = active)

/-- Model of `str.isdigit` restricted to ASCII digits (the only digits
this program ever writes into a backup name), over the character list
of the string. -/
def isdigitStr (s : String) : Bool := !s.data.isEmpty && s.data.all Char.isDigit

/-- Model of `int(s)` on a string of ASCII digits, over the character
list of the string. -/
def toNatDigits (s : String) : Nat :=
  s.data.foldl (fun a ch => a * 10 + (ch.toNat - 48)) 0

/-- The trailing dot-segment of the stem: `backup.stem.split('.')[-1]`. -/
def stemLastSeg (n : FileName) : String := (stemOf n).getLastD ""

/-- The numeric sequence suffix of a backup name. -/
def seqOf (n : FileName) : Nat := toNatDigits (stemLastSeg n)

/-- Model of Python `sorted(l, key=...)`: any stable comparison sort;
insertion sort with a non-strict comparison is stable, hence
extensionally identical to CPython Timsort. -/
def sortedByKey {α : Type} (key : α → Nat) (l : List α) : List α :=
  List.insertionSort (fun a b => key a ≤ key b) l

instance keyRelTotal {α : Type} (key : α → Nat) :
    IsTotal α (fun a b => key a ≤ key b) :=
  ⟨fun a b => Nat.le_total (key a) (key b)⟩

instance keyRelTrans {α : Type} (key : α → Nat) :
    IsTrans α (fun a b => key a ≤ key b) :=
  ⟨fun _ _ _ hab hbc => Nat.le_trans hab hbc⟩

/-- Model of `get_existing_backups`: among the sibling names of the
active file, keep those matching the glob `stem.*suffix` whose trailing
stem segment is all digits; sort by the integer value of that segment
when requested. -/
def get_existing_backups (file_path : FileName) (siblings : List FileName)
    (sort : Bool) : List FileName :=
  let existing_backups := siblings.filter
    (fun backup => globMatches file_path backup && isdigitStr (stemLastSeg backup))
  if sort then sortedByKey seqOf existing_backups else existing_backups

/-- Model of `get_last_rollover_seq`: -1 with no backups, else the
numeric suffix of the last backup in ascending order. -/
def get_last_rollover_seq (file_path : FileName) (siblings : List FileName) : Int :=
  let existing_backups := get_existing_backups file_path siblings true
  match existing_backups.getLast? with
  | none => -1
  | some b => (seqOf b : Int)

/-- Model of the seeding in `LogState.__init__`:
`self.next_rollover_seq = max(get_last_rollover_seq(self.file_path)+1, 0)`. -/
def init_next_rollover_seq (file_path : FileName) (siblings : List FileName) : Int :=
  max (get_last_rollover_seq file_path siblings + 1) 0

/-- State of one `BinaryLogger` together with the files it owns on
disk.  `backups` holds, in creation order, the numeric sequence suffix
and the byte content of each rollover backup file (named
`file_path.with_suffix(f".{seq}{suffix}")`); `active` is the byte
content of the active file.  The model covers the logger running alone
in its directory (no external process adds, removes or edits its
files), which is the setting of every claim below. -/
structure LogState where
  max_file_size : Nat
  is_closed : Bool
  next_rollover_seq : Nat
  backups : List (Nat × List Nat)
  active : List Nat
deriving DecidableEq

/-- A logger constructed by `BinaryLogger(path, M)` against a directory
with no pre-existing backups: `get_last_rollover_seq` returns -1, so
`next_rollover_seq = max(-1+1, 0) = 0`, and the active file is created
empty by append mode.  The constructor raises `ValueError` unless
`0 < M`; theorems about `freshLog` carry that hypothesis. -/
def freshLog (max_file_size : Nat) : LogState :=
  { max_file_size := max_file_size
    is_closed := false
    next_rollover_seq := 0
    backups := []
    active := [] }

/-- Model of `LogState.close` (and `BinaryLogger.close`, which
delegates to it): under the lock, closes the handle unless already
closed; idempotent and never raises. -/
def close (st : LogState) : LogState := { st with is_closed := true }

/-- Model of `LogState.rollover` as invoked under the write lock: the
active file exists (append mode created it and a frame was just
flushed), so it is renamed to the backup path carrying
`next_rollover_seq`, the counter is incremented, and a fresh empty
active file is reopened with `is_closed` reset to `False`.  The
modelled filesystem does not fail, so the `except` branch that marks
the state closed and re-raises is unreachable here. -/
def rollover (st : LogState) : LogState :=
  { st with
    is_closed := false
    next_rollover_seq := st.next_rollover_seq + 1
    backups := st.backups ++ [(st.next_rollover_seq, st.active)]
    active := [] }

/-- Model of `BinaryLogger.write`: `__serialize` runs before the lock
is taken and before the closed check, so an oversized payload raises
`OverflowError` with the state untouched; a closed logger raises
`RuntimeError`; otherwise the frame is appended and flushed and, when
the flushed size `handle.tell()` has reached `max_file_size`, the file
is rolled over. -/
def write (st : LogState) (payload : PyStr) : Except WErr LogState :=
  match serialize payload with
  | Except.error e => Except.error e
  | Except.ok bytes_payload =>
    if st.is_closed then Except.error WErr.closedErr
    else
      let st1 := { st with active := st.active ++ bytes_payload }
      if st.max_file_size ≤ st1.active.length then Except.ok (rollover st1)
      else Except.ok st1

/-- Sequential composition of writes; stops at the first raised error
as a Python caller would. -/
def writeAll (st : LogState) : List PyStr → Except WErr LogState
  | [] => Except.ok st
  | p :: ps =>
    match write st p with
    | Except.ok st2 => writeAll st2 ps
    | Except.error e => Except.error e

/-- The files `BinaryLogger.read` visits, in order: the existing
backups sorted ascending by sequence number, then the active file.  In
the modelled single-instance directory the backup files are exactly
`st.backups`, and the name-level sort of `get_existing_backups`
coincides with sorting on the stored sequence number, because the name
built at rollover embeds exactly that number and `int` inverts `str` on
it. -/
def filesOf (st : LogState) : List (List Nat) :=
  (sortedByKey Prod.fst st.backups).map Prod.snd ++ [st.active]

/-- Model of `BinaryLogger.read()` on the instance's own files: every
file opens successfully and contributes the payloads its
deserialization yields before finishing or raising; the
`except (OSError, IOError): continue` clause in `read` also catches a
corruption `IOError` raised mid-iteration by
`yield from self.__deserialize(...)`, so an error never escapes and
reading continues with the next file. -/
def read (st : LogState) : List PyStr :=
  ((filesOf st).map (fun f => (deserialize f).1)).flatten

/-- Model of `BinaryLogger.read(path)` over an explicit list of files
in visiting order, each given as (openable, byte content): a file whose
`open` raises `OSError` is skipped silently, and an opened file
contributes exactly the payloads yielded before its deserialization
finishes or raises. -/
def readFiles (files : List (Bool × List Nat)) : List PyStr :=
  (files.map (fun f => if f.1 then (deserialize f.2).1 else [])).flatten

/-- The public operations of a `BinaryLogger` that could touch its
state. -/
inductive PubOp where
  | writeOp (payload : PyStr) : PubOp
  | closeOp : PubOp
  | readOp : PubOp

/-- Effect of one public call on the state: a `write` that raises
(`OverflowError` before the lock or `RuntimeError` when closed) leaves
the state unchanged, `close` closes, and `read` never touches the
writer state. -/
def applyOp (st : LogState) : PubOp → LogState
  | PubOp.writeOp p =>
    match write st p with
    | Except.ok st2 => st2
    | Except.error _ => st
  | PubOp.closeOp => close st
  | PubOp.readOp => st

/-- Effect of a sequence of public calls. -/
def applyOps (st : LogState) (ops : List PubOp) : LogState :=
  ops.foldl applyOp st

/-- Invariant tying a state to the payloads written so far: the logger
is open, backup sequence numbers strictly increase and stay below
`next_rollover_seq`, and the file contents partition the frames of the
written payloads file by file, the active file holding the most recent
slice. -/
structure Inv (st : LogState) (ps : List PyStr) : Prop where
  hopen : st.is_closed = false
  hseq : (st.backups.map Prod.fst).Pairwise (· < ·)
  hbound : ∀ q ∈ st.backups.map Prod.fst, q < st.next_rollover_seq
  hsplit : ∃ bp : List (List PyStr), ∃ ap : List PyStr,
    st.backups.map Prod.snd = bp.map bytesOfPayloads ∧
    st.active = bytesOfPayloads ap ∧
    bp.flatten ++ ap = ps

/-- `Interleaving ts ws` holds when `ws` arises by repeatedly removing
the head of one of the per-thread sequences in `ts` (one removal per
acquired lock) until all are empty. -/
inductive Interleaving : List (List PyStr) → List PyStr → Prop where
  | nil (ts : List (List PyStr)) (h : ∀ t ∈ ts, t = []) : Interleaving ts []
  | step (ts : List (List PyStr)) (i : Nat) (p : PyStr) (rest : List PyStr)
      (out : List PyStr) (hi : ts[i]? = some (p :: rest))
      (htail : Interleaving (ts.set i rest) out) : Interleaving ts (p :: out)



theorem length_toBytesBE (w n : Nat) : (toBytesBE w n).length = w := by
  induction w generalizing n with
  | zero => rfl
  | succ w ih => simp [toBytesBE, ih]

theorem foldl_toBytesBE (w n acc : Nat) (h : n < 256 ^ w) :
    (toBytesBE w n).foldl (fun a b => a * 256 + b) acc = acc * 256 ^ w + n := by
  induction w generalizing n acc with
  | zero =>
    interval_cases n
    simp [toBytesBE]
  | succ w ih =>
    have hdiv : n / 256 < 256 ^ w := by
      rw [Nat.div_lt_iff_lt_mul (by norm_num)]
      calc n < 256 ^ (w + 1) := h
        _ = 256 ^ w * 256 := by ring
    simp only [toBytesBE, List.foldl_append, List.foldl_cons, List.foldl_nil, ih _ _ hdiv]
    have := Nat.div_add_mod n 256
    have : 256 ^ (w + 1) = 256 ^ w * 256 := by ring
    nlinarith [Nat.div_add_mod n 256, Nat.mod_lt n (show 0 < 256 by norm_num)]

theorem fromBytesBE_toBytesBE (w n : Nat) (h : n < 256 ^ w) :
    fromBytesBE (toBytesBE w n) = n := by
  simpa using foldl_toBytesBE w n 0 h

/-! ### UTF-8 with replacement, modelling
`payload.encode("utf-8", errors="replace")` and
`payload_buffer.decode("utf-8", errors="replace")`. -/

theorem utf8Dec_cons (b0 : Nat) (rest : List Nat) :
    utf8Dec (b0 :: rest) = (decOne b0 rest).1 :: utf8Dec (decOne b0 rest).2 := by
  rw [utf8Dec.eq_def]

theorem utf8Dec_cons1 (b0 : Nat) (t : List Nat) (h : b0 < 0x80) :
    utf8Dec (b0 :: t) = b0 :: utf8Dec t := by
  have hd : decOne b0 t = (b0, t) := by
    unfold decOne
    rw [if_pos h]
  rw [utf8Dec_cons, hd]

theorem utf8Dec_cons2 (b0 b1 : Nat) (t : List Nat)
    (h0 : 0xC2 ≤ b0) (h0h : b0 ≤ 0xDF) (h1 : isCont b1 = true) :
    utf8Dec (b0 :: b1 :: t) = ((b0 - 0xC0) * 0x40 + (b1 - 0x80)) :: utf8Dec t := by
  have hd : decOne b0 (b1 :: t) = ((b0 - 0xC0) * 0x40 + (b1 - 0x80), t) := by
    unfold decOne
    rw [if_neg (by omega), if_pos ⟨h0, h0h⟩]
    dsimp only
    rw [if_pos h1]
  rw [utf8Dec_cons, hd]

theorem utf8Dec_cons3 (b0 b1 b2 : Nat) (t : List Nat)
    (h0 : 0xE0 ≤ b0) (h0h : b0 ≤ 0xEF) (h1 : lo3 b0 ≤ b1) (h1h : b1 ≤ hi3 b0)
    (h2 : isCont b2 = true) :
    utf8Dec (b0 :: b1 :: b2 :: t) =
      ((b0 - 0xE0) * 0x1000 + (b1 - 0x80) * 0x40 + (b2 - 0x80)) :: utf8Dec t := by
  have hd : decOne b0 (b1 :: b2 :: t) =
      ((b0 - 0xE0) * 0x1000 + (b1 - 0x80) * 0x40 + (b2 - 0x80), t) := by
    unfold decOne
    rw [if_neg (by omega), if_neg (by omega), if_pos ⟨h0, h0h⟩]
    dsimp only
    rw [if_pos ⟨h1, h1h, h2⟩]
  rw [utf8Dec_cons, hd]

theorem utf8Dec_cons4 (b0 b1 b2 b3 : Nat) (t : List Nat)
    (h0 : 0xF0 ≤ b0) (h0h : b0 ≤ 0xF4) (h1 : lo4 b0 ≤ b1) (h1h : b1 ≤ hi4 b0)
    (h2 : isCont b2 = true) (h3 : isCont b3 = true) :
    utf8Dec (b0 :: b1 :: b2 :: b3 :: t) =
      ((b0 - 0xF0) * 0x40000 + (b1 - 0x80) * 0x1000 + (b2 - 0x80) * 0x40 +
        (b3 - 0x80)) :: utf8Dec t := by
  have hlt3 : ¬ (0xE0 ≤ b0 ∧ b0 ≤ 0xEF) := by omega
  have hd : decOne b0 (b1 :: b2 :: b3 :: t) =
      ((b0 - 0xF0) * 0x40000 + (b1 - 0x80) * 0x1000 + (b2 - 0x80) * 0x40 +
        (b3 - 0x80), t) := by
    unfold decOne
    rw [if_neg (by omega), if_neg (by omega), if_neg hlt3, if_pos ⟨h0, h0h⟩]
    dsimp only
    rw [if_pos ⟨h1, h1h, h2, h3⟩]
  rw [utf8Dec_cons, hd]

theorem utf8Dec_encodeCp (c : Nat) (t : List Nat) (hv : validCp c)
    (hs : isSurrogate c = false) :
    utf8Dec (encodeCp c ++ t) = c :: utf8Dec t := by
  have hsurr : ¬ (0xD800 ≤ c ∧ c ≤ 0xDFFF) := by
    intro h
    simp [isSurrogate, h.1, h.2] at hs
  rcases Nat.lt_or_ge c 0x80 with h1 | h1
  · have he : encodeCp c = [c] := by simp [encodeCp, hs, h1]
    rw [he, List.singleton_append, utf8Dec_cons1 c t h1]
  · rcases Nat.lt_or_ge c 0x800 with h2 | h2
    · have he : encodeCp c = [0xC0 + c / 0x40, 0x80 + c % 0x40] := by
        simp [encodeCp, hs, Nat.not_lt.mpr h1, h2]
      have hb1 : isCont (0x80 + c % 0x40) = true := by
        simp only [isCont, Bool.and_eq_true, decide_eq_true_eq]
        omega
      rw [he]
      simp only [List.cons_append, List.nil_append]
      have hrw := utf8Dec_cons2 (0xC0 + c / 0x40) (0x80 + c % 0x40) t
        (by omega) (by omega) hb1
      rw [hrw]
      have hc : (0xC0 + c / 0x40 - 0xC0) * 0x40 + (0x80 + c % 0x40 - 0x80) = c := by
        omega
      rw [hc]
    · rcases Nat.lt_or_ge c 0x10000 with h3 | h3
      · have he : encodeCp c =
            [0xE0 + c / 0x1000, 0x80 + c / 0x40 % 0x40, 0x80 + c % 0x40] := by
          simp [encodeCp, hs, Nat.not_lt.mpr h1, Nat.not_lt.mpr h2, h3]
        have hb2 : isCont (0x80 + c % 0x40) = true := by
          simp only [isCont, Bool.and_eq_true, decide_eq_true_eq]
          omega
        have hlo : lo3 (0xE0 + c / 0x1000) ≤ 0x80 + c / 0x40 % 0x40 := by
          simp only [lo3]
          split <;> omega
        have hhi : 0x80 + c / 0x40 % 0x40 ≤ hi3 (0xE0 + c / 0x1000) := by
          simp only [hi3]
          split <;> omega
        rw [he]
        simp only [List.cons_append, List.nil_append]
        have hrw := utf8Dec_cons3 (0xE0 + c / 0x1000) (0x80 + c / 0x40 % 0x40)
          (0x80 + c % 0x40) t (by omega) (by omega) hlo hhi hb2
        rw [hrw]
        have hc : (0xE0 + c / 0x1000 - 0xE0) * 0x1000 +
            (0x80 + c / 0x40 % 0x40 - 0x80) * 0x40 + (0x80 + c % 0x40 - 0x80) = c := by
          omega
        rw [hc]
      · have he : encodeCp c =
            [0xF0 + c / 0x40000, 0x80 + c / 0x1000 % 0x40, 0x80 + c / 0x40 % 0x40,
              0x80 + c % 0x40] := by
          simp [encodeCp, hs, Nat.not_lt.mpr h1, Nat.not_lt.mpr h2, Nat.not_lt.mpr h3]
        have hvc : c < 0x110000 := hv
        have hb2 : isCont (0x80 + c / 0x40 % 0x40) = true := by
          simp only [isCont, Bool.and_eq_true, decide_eq_true_eq]
          omega
        have hb3 : isCont (0x80 + c % 0x40) = true := by
          simp only [isCont, Bool.and_eq_true, decide_eq_true_eq]
          omega
        have hlo : lo4 (0xF0 + c / 0x40000) ≤ 0x80 + c / 0x1000 % 0x40 := by
          simp only [lo4]
          split <;> omega
        have hhi : 0x80 + c / 0x1000 % 0x40 ≤ hi4 (0xF0 + c / 0x40000) := by
          simp only [hi4]
          split <;> omega
        rw [he]
        simp only [List.cons_append, List.nil_append]
        have hrw := utf8Dec_cons4 (0xF0 + c / 0x40000) (0x80 + c / 0x1000 % 0x40)
          (0x80 + c / 0x40 % 0x40) (0x80 + c % 0x40) t (by omega) (by omega)
          hlo hhi hb2 hb3
        rw [hrw]
        have hc : (0xF0 + c / 0x40000 - 0xF0) * 0x40000 +
            (0x80 + c / 0x1000 % 0x40 - 0x80) * 0x1000 +
            (0x80 + c / 0x40 % 0x40 - 0x80) * 0x40 + (0x80 + c % 0x40 - 0x80) = c := by
          omega
        rw [hc]

theorem utf8Dec_encodeStr (p : PyStr) (t : List Nat) (hp : scalarStr p) :
    utf8Dec (encodeStr p ++ t) = p ++ utf8Dec t := by
  induction p with
  | nil => simp [encodeStr]
  | cons c cs ih =>
    have hc := hp c (List.mem_cons_self c cs)
    have hcs : scalarStr cs := fun d hd => hp d (List.mem_cons_of_mem c hd)
    simp only [encodeStr, List.map_cons, List.flatten_cons, List.append_assoc]
    rw [utf8Dec_encodeCp c _ hc.1 hc.2]
    simpa [encodeStr] using congrArg (c :: ·) (ih hcs)

theorem utf8Dec_nil : utf8Dec [] = [] := by
  rw [utf8Dec.eq_def]

theorem utf8Dec_encodeStr_nil (p : PyStr) (hp : scalarStr p) :
    utf8Dec (encodeStr p) = p := by
  simpa [utf8Dec_nil] using utf8Dec_encodeStr p [] hp

theorem encodeStr_replicate_a (n : Nat) :
    encodeStr (List.replicate n 97) = List.replicate n 97 := by
  induction n with
  | zero => simp [encodeStr]
  | succ n ih =>
    simp only [List.replicate_succ, encodeStr, List.map_cons, List.flatten_cons]
    have h97 : encodeCp 97 = [97] := by decide
    rw [h97]
    simpa [encodeStr] using congrArg (97 :: ·) ih

theorem encLen_replicate_a (n : Nat) :
    (encodeStr (List.replicate n 97)).length = n := by
  rw [encodeStr_replicate_a, List.length_replicate]

/-! ### Framing: `BinaryLogger.__serialize` and `BinaryLogger.__deserialize` -/

theorem serialize_ok (payload : PyStr) (h : fits payload) :
    serialize payload = Except.ok (frameOf payload) := by
  have h2 : (encodeStr payload).length < 256 ^ length_bytesize := h
  simp [serialize, frameOf, h2]

theorem serialize_overflow (payload : PyStr) (h : ¬ fits payload) :
    serialize payload = Except.error WErr.overflowErr := by
  have h2 : ¬ (encodeStr payload).length < 256 ^ length_bytesize := h
  simp [serialize, h2]

theorem deserialize_nil : deserialize [] = ([], none) := by
  rw [deserialize.eq_def]
  simp

theorem deserialize_frame (p : PyStr) (rest : List Nat) (hfit : fits p) :
    deserialize (frameOf p ++ rest) =
      (utf8Dec (encodeStr p) :: (deserialize rest).1, (deserialize rest).2) := by
  have hlen4 : (toBytesBE length_bytesize (encodeStr p).length).length =
      length_bytesize := length_toBytesBE _ _
  have hlen : (frameOf p ++ rest).length =
      length_bytesize + (encodeStr p).length + rest.length := by
    simp [frameOf, hlen4]
    omega
  have hLB : length_bytesize = 4 := rfl
  have htake : (frameOf p ++ rest).take length_bytesize =
      toBytesBE length_bytesize (encodeStr p).length := by
    rw [frameOf, List.append_assoc, List.take_append_of_le_length (by omega),
      List.take_of_length_le (by omega)]
  have hdrop : (frameOf p ++ rest).drop length_bytesize = encodeStr p ++ rest := by
    rw [frameOf, List.append_assoc, List.drop_append_of_le_length (by omega),
      List.drop_of_length_le (by omega), List.nil_append]
  rw [deserialize.eq_def]
  rw [dif_neg (by omega)]
  rw [if_neg (by omega)]
  rw [htake, hdrop, fromBytesBE_toBytesBE _ _ hfit]
  rw [if_neg (by simp only [List.length_append]; omega)]
  rw [List.take_append_of_le_length (by omega), List.take_of_length_le (by omega),
    List.drop_append_of_le_length (by omega), List.drop_of_length_le (by omega),
    List.nil_append]

theorem deserialize_bytesOfPayloads (qs : List PyStr)
    (h : ∀ p ∈ qs, scalarStr p ∧ fits p) :
    deserialize (bytesOfPayloads qs) = (qs, none) := by
  induction qs with
  | nil => simpa [bytesOfPayloads] using deserialize_nil
  | cons p ps ih =>
    have hp := h p (List.mem_cons_self p ps)
    have hps : ∀ q ∈ ps, scalarStr q ∧ fits q :=
      fun q hq => h q (List.mem_cons_of_mem p hq)
    have : bytesOfPayloads (p :: ps) = frameOf p ++ bytesOfPayloads ps := by
      simp [bytesOfPayloads]
    rw [this, deserialize_frame p _ hp.2, ih hps, utf8Dec_encodeStr_nil p hp.1]

/-! ### Backup naming (`src/utilities.py`)

File names are modelled as their lists of dot-separated segments: the
name `events.3.bin` is `["events", "3", "bin"]`.  Segments are assumed
not to contain dots or glob metacharacters and names do not start with
a dot, which matches every name this program builds or enumerates.
Under that assumption `pathlib` operations are exact on segments:
`Path(name).stem` drops the final segment when there are at least two,
`Path(name).suffix` is the final segment (with its dot) when there are
at least two, and the pattern `stem.*suffix` produced by
`file_path.with_suffix(f".*{suffix}")` matches exactly the names
`stem ++ "." ++ X ++ suffix` for an arbitrary (possibly empty, possibly
dotted) string `X`, that is, the segment lists `stem ++ mid ++ [suffix]`
with `mid` a nonempty segment list. -/

theorem sortedByKey_sorted {α : Type} (key : α → Nat) (l : List α) :
    (sortedByKey key l).Pairwise (fun a b => key a ≤ key b) :=
  List.sorted_insertionSort _ l

theorem mem_sortedByKey {α : Type} (key : α → Nat) (l : List α) (x : α) :
    x ∈ sortedByKey key l ↔ x ∈ l :=
  List.mem_insertionSort _

theorem sortedByKey_eq_self {α : Type} (key : α → Nat) (l : List α)
    (h : l.Pairwise (fun a b => key a ≤ key b)) : sortedByKey key l = l :=
  List.Sorted.insertionSort_eq h

theorem mem_get_existing_backups (file_path : FileName) (siblings : List FileName)
    (sort : Bool) (b : FileName) :
    b ∈ get_existing_backups file_path siblings sort ↔
      b ∈ siblings ∧
        (globMatches file_path b && isdigitStr (stemLastSeg b)) = true := by
  unfold get_existing_backups
  cases sort with
  | false => simp [List.mem_filter]
  | true => simp [mem_sortedByKey, List.mem_filter]

theorem key_le_of_getLast?_of_sorted {α : Type} (key : α → Nat) :
    ∀ (l : List α), l.Pairwise (fun a b => key a ≤ key b) →
      ∀ b, l.getLast? = some b → ∀ x ∈ l, key x ≤ key b := by
  intro l
  induction l with
  | nil => intro _ b hb; simp at hb
  | cons a t ih =>
    intro hp b hb x hx
    rcases List.pairwise_cons.mp hp with ⟨ha, hpt⟩
    cases t with
    | nil =>
      simp at hb
      rcases List.mem_singleton.mp hx with rfl
      rw [hb]
    | cons c u =>
      have hb2 : (c :: u).getLast? = some b := by
        simpa [List.getLast?] using hb
      rcases List.mem_cons.mp hx with rfl | hx2
      · have hbmem : b ∈ c :: u := by
          have := List.getLast?_eq_getLast (c :: u) (by simp)
          rw [this] at hb2
          have hb3 : (c :: u).getLast (by simp) = b := by
            simpa using hb2
          rw [← hb3]
          exact List.getLast_mem _
        exact ha b hbmem
      · exact ih hpt b hb2 x hx2

/-! ### Log state machine (`LogState` and `BinaryLogger` in
`src/simple_logger.py`) -/

theorem bytesOfPayloads_append (xs ys : List PyStr) :
    bytesOfPayloads (xs ++ ys) = bytesOfPayloads xs ++ bytesOfPayloads ys := by
  simp [bytesOfPayloads]

theorem inv_freshLog (M : Nat) : Inv (freshLog M) [] := by
  refine ⟨rfl, ?_, ?_, [], [], ?_, ?_, ?_⟩ <;> simp [freshLog, bytesOfPayloads]

theorem write_step (st : LogState) (ps : List PyStr) (p : PyStr)
    (hInv : Inv st ps) (hfit : fits p) :
    ∃ st2, write st p = Except.ok st2 ∧ Inv st2 (ps ++ [p]) := by
  obtain ⟨bp, ap, hmap, hact, hflat⟩ := hInv.hsplit
  unfold write
  rw [serialize_ok p hfit, hInv.hopen]
  simp only [Bool.false_eq_true, if_false]
  dsimp only
  by_cases hr : st.max_file_size ≤ (st.active ++ frameOf p).length
  · rw [if_pos hr]
    refine ⟨_, rfl, ?_, ?_, ?_, bp ++ [ap ++ [p]], [], ?_, ?_, ?_⟩
    · rfl
    · simp only [rollover, List.map_append]
      rw [List.pairwise_append]
      refine ⟨hInv.hseq, by simp, ?_⟩
      intro a ha b hb
      simp only [List.map_cons, List.map_nil, List.mem_singleton] at hb
      subst hb
      exact hInv.hbound a ha
    · intro q hq
      simp only [rollover, List.map_append, List.mem_append, List.map_cons,
        List.map_nil, List.mem_singleton] at hq
      rcases hq with hq | hq
      · exact Nat.lt_succ_of_lt (hInv.hbound q hq)
      · subst hq
        exact Nat.lt_succ_self _
    · simp only [rollover, List.map_append, List.map_cons, List.map_nil]
      rw [hmap, hact, bytesOfPayloads_append]
      simp [bytesOfPayloads]
    · simp [rollover, bytesOfPayloads]
    · simp only [List.flatten_append, List.flatten_cons, List.flatten_nil,
        List.append_nil]
      rw [← List.append_assoc, hflat]
  · rw [if_neg hr]
    refine ⟨_, rfl, rfl, hInv.hseq, hInv.hbound, bp, ap ++ [p], hmap, ?_, ?_⟩
    · rw [bytesOfPayloads_append, ← hact]
      simp [bytesOfPayloads]
    · rw [← List.append_assoc, hflat]

theorem writeAll_ok (ps2 : List PyStr) : ∀ (st : LogState) (ps : List PyStr),
    Inv st ps → (∀ p ∈ ps2, fits p) →
    ∃ st2, writeAll st ps2 = Except.ok st2 ∧ Inv st2 (ps ++ ps2) := by
  induction ps2 with
  | nil =>
    intro st ps h _
    exact ⟨st, rfl, by simpa using h⟩
  | cons p t ih =>
    intro st ps h hf
    obtain ⟨st2, hw, hInv2⟩ := write_step st ps p h (hf p (List.mem_cons_self p t))
    obtain ⟨st3, hw3, hInv3⟩ := ih st2 (ps ++ [p]) hInv2
      (fun q hq => hf q (List.mem_cons_of_mem p hq))
    refine ⟨st3, ?_, ?_⟩
    · unfold writeAll
      rw [hw]
      exact hw3
    · have he : (ps ++ [p]) ++ t = ps ++ p :: t := by simp
      exact he ▸ hInv3

theorem read_of_inv (st : LogState) (ps : List PyStr) (hInv : Inv st ps)
    (hv : ∀ p ∈ ps, scalarStr p ∧ fits p) :
    read st = ps ∧ ∀ f ∈ filesOf st, deserialize f = ((deserialize f).1, none) := by
  obtain ⟨bp, ap, hmap, hact, hflat⟩ := hInv.hsplit
  have hsorted : sortedByKey Prod.fst st.backups = st.backups := by
    apply sortedByKey_eq_self
    have := hInv.hseq
    rw [List.pairwise_map] at this
    exact this.imp (fun h => Nat.le_of_lt h)
  have hq_valid : ∀ qs ∈ bp, ∀ q ∈ qs, scalarStr q ∧ fits q := by
    intro qs hqs q hq
    refine hv q ?_
    rw [← hflat]
    exact List.mem_append_left _ (List.mem_flatten.mpr ⟨qs, hqs, hq⟩)
  have hap_valid : ∀ q ∈ ap, scalarStr q ∧ fits q := by
    intro q hq
    refine hv q ?_
    rw [← hflat]
    exact List.mem_append_right _ hq
  have hfiles : filesOf st = bp.map bytesOfPayloads ++ [bytesOfPayloads ap] := by
    rw [filesOf, hsorted, hmap, hact]
  constructor
  · rw [read, hfiles]
    simp only [List.map_append, List.map_map, List.map_cons, List.map_nil]
    have h1 : bp.map ((fun f => (deserialize f).1) ∘ bytesOfPayloads) = bp := by
      rw [List.map_congr_left (g := id) ?_, List.map_id]
      intro qs hqs
      simp [deserialize_bytesOfPayloads qs (hq_valid qs hqs)]
    have h2 : (deserialize (bytesOfPayloads ap)).1 = ap := by
      rw [deserialize_bytesOfPayloads ap hap_valid]
    rw [h1, h2]
    simp [hflat]
  · intro f hf
    rw [hfiles] at hf
    rcases List.mem_append.mp hf with hf | hf
    · obtain ⟨qs, hqs, rfl⟩ := List.mem_map.mp hf
      rw [deserialize_bytesOfPayloads qs (hq_valid qs hqs)]
    · rcases List.mem_singleton.mp hf with rfl
      rw [deserialize_bytesOfPayloads ap hap_valid]

/-! ### Closed-state behaviour -/

theorem write_closed (st : LogState) (p : PyStr) (hc : st.is_closed = true)
    (hfit : fits p) : write st p = Except.error WErr.closedErr := by
  unfold write
  rw [serialize_ok p hfit, hc]
  rfl

theorem write_from_closed_raises (st : LogState) (p : PyStr)
    (hc : st.is_closed = true) : ∃ e, write st p = Except.error e := by
  by_cases hfit : fits p
  · exact ⟨WErr.closedErr, write_closed st p hc hfit⟩
  · refine ⟨WErr.overflowErr, ?_⟩
    unfold write
    rw [serialize_overflow p hfit]

theorem close_idem (st : LogState) : close (close st) = close st := rfl

theorem close_of_closed (st : LogState) (hc : st.is_closed = true) :
    close st = st := by
  cases st
  simp_all [close]

theorem applyOp_closed (st : LogState) (hc : st.is_closed = true) (op : PubOp) :
    (applyOp st op).is_closed = true := by
  cases op with
  | writeOp p =>
    obtain ⟨e, he⟩ := write_from_closed_raises st p hc
    unfold applyOp
    dsimp only
    rw [he]
    exact hc
  | closeOp => rfl
  | readOp => exact hc

theorem applyOps_closed (ops : List PubOp) : ∀ st : LogState,
    st.is_closed = true → (applyOps st ops).is_closed = true := by
  induction ops with
  | nil => intro st hc; exact hc
  | cons op t ih =>
    intro st hc
    exact ih (applyOp st op) (applyOp_closed st hc op)

/-! ### Interleavings of per-thread write sequences

The single re-entrant lock in `LogState` makes each `write` call one
atomic step: mutual exclusion serialises the lock-protected region
(append, flush, size check, possible rollover), so a schedule of
several threads, each issuing its own writes in program order, executes
at the file level as some interleaving of the per-thread payload
sequences that preserves each thread's own order.  The relation below
captures exactly those interleavings; which one occurs depends on the
scheduler and is unconstrained. -/

theorem sum_map_length_set (ts : List (List PyStr)) :
    ∀ (i : Nat) (p : PyStr) (rest : List PyStr), ts[i]? = some (p :: rest) →
    ((ts.set i rest).map List.length).sum + 1 = (ts.map List.length).sum := by
  induction ts with
  | nil => intro i p rest h; simp at h
  | cons a tl ih =>
    intro i p rest h
    cases i with
    | zero =>
      simp only [List.getElem?_cons_zero, Option.some_inj] at h
      subst h
      simp only [List.set_cons_zero, List.map_cons, List.sum_cons, List.length_cons]
      omega
    | succ j =>
      simp only [List.getElem?_cons_succ] at h
      have := ih j p rest h
      simp only [List.set_cons_succ, List.map_cons, List.sum_cons]
      omega

theorem interleaving_length (ts : List (List PyStr)) (ws : List PyStr)
    (h : Interleaving ts ws) : ws.length = (ts.map List.length).sum := by
  induction h with
  | nil ts h =>
    have : (ts.map List.length).sum = 0 := by
      apply List.sum_eq_zero
      intro x hx
      obtain ⟨t, ht, rfl⟩ := List.mem_map.mp hx
      rw [h t ht]
      rfl
    simp [this]
  | step ts i p rest out hi htail ih =>
    have := sum_map_length_set ts i p rest hi
    simp only [List.length_cons, ih]
    omega

theorem interleaving_sublist (ts : List (List PyStr)) (ws : List PyStr)
    (h : Interleaving ts ws) : ∀ t ∈ ts, t.Sublist ws := by
  induction h with
  | nil ts h =>
    intro t ht
    rw [h t ht]
  | step ts i p rest out hi htail ih =>
    intro t ht
    obtain ⟨j, hjlen, rfl⟩ := List.mem_iff_getElem.mp ht
    by_cases hij : j = i
    · subst hij
      have hj : ts[j]? = some ts[j] := List.getElem?_eq_getElem hjlen
      rw [hi] at hj
      injection hj with hj
      have hset : (ts.set j rest)[j]? = some rest := by
        simp [List.getElem?_set_self, hjlen]
      have hsub := ih rest (List.getElem?_mem hset)
      rw [← hj]
      exact hsub.cons₂ p
    · have hset : (ts.set i rest)[j]? = ts[j]? := List.getElem?_set_ne (by omega)
      have hmem : ts[j] ∈ ts.set i rest := by
        apply List.getElem?_mem
        rw [hset]
        exact List.getElem?_eq_getElem hjlen
      exact (ih _ hmem).cons p

theorem sum_map_length_const (ts : List (List PyStr)) (K : Nat)
    (h : ∀ t ∈ ts, t.length = K) : (ts.map List.length).sum = ts.length * K := by
  induction ts with
  | nil => simp
  | cons a tl ih =>
    simp only [List.map_cons, List.sum_cons, List.length_cons,
      h a (List.mem_cons_self a tl), ih (fun t ht => h t (List.mem_cons_of_mem a ht))]
    ring

/-! ### Remaining helper lemmas -/

theorem deserialize_single (p : PyStr) (hp : scalarStr p) (hf : fits p) :
    deserialize (frameOf p) = ([p], none) := by
  have h := deserialize_frame p [] hf
  simp only [List.append_nil, deserialize_nil] at h
  rw [utf8Dec_encodeStr_nil p hp] at h
  exact h

theorem write_overflow (st : LogState) (p : PyStr) (hnf : ¬ fits p) :
    write st p = Except.error WErr.overflowErr := by
  unfold write
  rw [serialize_overflow _ hnf]

theorem applyOp_write_overflow (st : LogState) (p : PyStr) (hnf : ¬ fits p) :
    applyOp st (PubOp.writeOp p) = st := by
  unfold applyOp
  dsimp only
  rw [write_overflow st p hnf]

theorem write_open_ok (st : LogState) (q : PyStr) (hopen : st.is_closed = false)
    (hq : fits q) : ∃ st2, write st q = Except.ok st2 := by
  unfold write
  rw [serialize_ok q hq, hopen]
  simp only [Bool.false_eq_true, if_false]
  dsimp only
  by_cases hr : st.max_file_size ≤ (st.active ++ frameOf q).length
  · exact ⟨_, by rw [if_pos hr]⟩
  · exact ⟨_, by rw [if_neg hr]⟩

theorem get_existing_backups_true_sorted (fp : FileName) (ss : List FileName) :
    (get_existing_backups fp ss true).Pairwise (fun a b => seqOf a ≤ seqOf b) := by
  unfold get_existing_backups
  simp only [if_true]
  exact sortedByKey_sorted _ _

theorem gls_of_getLast?_some (fp : FileName) (ss : List FileName) (b : FileName)
    (hb : (get_existing_backups fp ss true).getLast? = some b) :
    get_last_rollover_seq fp ss = (seqOf b : Int) := by
  simp only [get_last_rollover_seq]
  rw [hb]

theorem gls_of_getLast?_none (fp : FileName) (ss : List FileName)
    (hb : (get_existing_backups fp ss true).getLast? = none) :
    get_last_rollover_seq fp ss = -1 := by
  simp only [get_last_rollover_seq]
  rw [hb]

theorem gls_ge_neg_one (fp : FileName) (ss : List FileName) :
    -1 ≤ get_last_rollover_seq fp ss := by
  cases hb : (get_existing_backups fp ss true).getLast? with
  | none => rw [gls_of_getLast?_none fp ss hb]
  | some b =>
    rw [gls_of_getLast?_some fp ss b hb]
    omega

theorem mem_of_getLast?_some {α : Type} (l : List α) (a : α)
    (h : l.getLast? = some a) : a ∈ l := by
  cases l with
  | nil => simp at h
  | cons b t =>
    rw [List.getLast?_eq_getLast (b :: t) (by simp)] at h
    have hmem := List.getLast_mem (l := b :: t) (by simp)
    rwa [Option.some_inj.mp h] at hmem

/-! ### The claims -/

/-- C1 (amended): for every finite sequence of payloads made of Unicode
scalar values (no surrogate code points) whose UTF-8 encodings each fit
the 4-byte length field, writing them in order on a fresh `BinaryLogger`
and then iterating `read` yields exactly the same sequence in the same
order, across the active file and all rollover backups, with no
deserialization error in any file. -/
theorem round_trip (M : Nat) (ps : List PyStr) (_hM : 0 < M)
    (hv : ∀ p ∈ ps, scalarStr p ∧ fits p) :
    ∃ st, writeAll (freshLog M) ps = Except.ok st ∧ read st = ps ∧
      ∀ f ∈ filesOf st, deserialize f = ((deserialize f).1, none) := by
  obtain ⟨st, hw, hInv⟩ := writeAll_ok ps (freshLog M) [] (inv_freshLog M)
    (fun p hp => (hv p hp).2)
  have hInv2 : Inv st ps := (List.nil_append ps) ▸ hInv
  obtain ⟨hread, hnone⟩ := read_of_inv st ps hInv2 hv
  exact ⟨st, hw, hread, hnone⟩

/-- C1 witness: the amended round trip at a concrete input. -/
theorem round_trip_witness :
    ∃ st, writeAll (freshLog 2) [[0x68, 0x69], [], [0x68]] = Except.ok st ∧
      read st = [[0x68, 0x69], [], [0x68]] ∧
      ∀ f ∈ filesOf st, deserialize f = ((deserialize f).1, none) :=
  round_trip 2 [[0x68, 0x69], [], [0x68]] (by decide) (by decide)

/-- C1 counterexample: the claim as stated fails on the code for the
one-character Python string made of the lone surrogate U+D800, which
`encode("utf-8", errors="replace")` turns into the single byte of the
question mark, so `read` returns the question-mark string instead of
the original payload. -/
theorem round_trip_cex :
    writeAll (freshLog 5) [[0xD800]] =
      Except.ok
        { max_file_size := 5, is_closed := false, next_rollover_seq := 1,
          backups := [(0, [0, 0, 0, 1, 0x3F])], active := [] } ∧
    read
        { max_file_size := 5, is_closed := false, next_rollover_seq := 1,
          backups := [(0, [0, 0, 0, 1, 0x3F])], active := [] } = [[0x3F]] ∧
    ([[0x3F]] : List PyStr) ≠ [[0xD800]] := by
  refine ⟨rfl, ?_, by decide⟩
  have h63 : deserialize [0, 0, 0, 1, 0x3F] = ([[0x3F]], none) := by
    have h := deserialize_single [0x3F] (by decide) (by decide)
    rwa [show frameOf [0x3F] = [0, 0, 0, 1, 0x3F] from rfl] at h
  have hfiles : filesOf
      { max_file_size := 5, is_closed := false, next_rollover_seq := 1,
        backups := [(0, [0, 0, 0, 1, 0x3F])], active := ([] : List Nat) } =
      [[0, 0, 0, 1, 0x3F], []] := rfl
  rw [read, hfiles]
  simp [h63, deserialize_nil]

/-- C2: inside `__deserialize`, a length prefix shorter than 4 bytes or
a payload shorter than declared raises a corruption `IOError`; but the
`except (OSError, IOError): continue` clause of `read` catches that
error too, so a corrupt opened file silently contributes only the
frames before the corruption and reading moves on to the next file,
exactly as it does for a file that cannot be opened.  The error never
reaches the caller, contradicting the claim and the docstring of
`read`. -/
theorem read_corruption_swallowed :
    deserialize [0, 0] = ([], some RErr.truncLen) ∧
    deserialize [0, 0, 0, 5, 0x68] = ([], some RErr.truncPayload) ∧
    readFiles [(true, [0, 0]), (true, [0, 0, 0, 1, 0x68])] = [[0x68]] ∧
    readFiles [(false, [0, 0, 0, 1, 0x69]), (true, [0, 0, 0, 1, 0x68])] =
      [[0x68]] := by
  have h104 : deserialize [0, 0, 0, 1, 0x68] = ([[0x68]], none) := by
    have h := deserialize_single [0x68] (by decide) (by decide)
    rwa [show frameOf [0x68] = [0, 0, 0, 1, 0x68] from rfl] at h
  have h02 : deserialize [0, 0] = ([], some RErr.truncLen) := by
    rw [deserialize.eq_def]
    rw [dif_neg (by decide)]
    rw [if_pos (by decide)]
  have h05 : deserialize [0, 0, 0, 5, 0x68] = ([], some RErr.truncPayload) := by
    rw [deserialize.eq_def]
    rw [dif_neg (by decide)]
    rw [if_neg (by decide)]
    rw [if_pos (by decide)]
  refine ⟨h02, h05, ?_, ?_⟩
  · simp [readFiles, h02, h104]
  · simp [readFiles, h104]

/-- C3: when a write is issued on an open logger and the flushed active
file reaches `max_file_size`, the write returns with the active file
emptied, exactly one new backup holding the previous active content
under the current `next_rollover_seq`, and the counter incremented by
exactly one. -/
theorem rollover_threshold (st : LogState) (p : PyStr)
    (hopen : st.is_closed = false) (hfit : fits p)
    (hcross : st.max_file_size ≤ (st.active ++ frameOf p).length) :
    write st p = Except.ok
      { st with
        is_closed := false
        next_rollover_seq := st.next_rollover_seq + 1
        backups := st.backups ++ [(st.next_rollover_seq, st.active ++ frameOf p)]
        active := [] } := by
  unfold write
  rw [serialize_ok p hfit, hopen]
  simp only [Bool.false_eq_true, if_false]
  dsimp only
  rw [if_pos hcross]
  rfl

/-- C3 witness: a concrete threshold-crossing write. -/
theorem rollover_threshold_witness :
    write (freshLog 1) [0x68] = Except.ok
      { max_file_size := 1, is_closed := false, next_rollover_seq := 1,
        backups := [(0, [0, 0, 0, 1, 0x68])], active := [] } :=
  rollover_threshold (freshLog 1) [0x68] rfl (by decide) (by decide)

/-- C4: `get_last_rollover_seq` returns -1 when no backups exist and
otherwise the maximum numeric suffix among existing backups (it is
attained by a backup and bounds them all); construction seeds
`next_rollover_seq = max(last+1, 0) = last + 1 ≥ 0`, which is strictly
above every existing backup number, so a reopened log never reuses
one. -/
theorem seq_counter_seeding (fp : FileName) (ss : List FileName) :
    (get_existing_backups fp ss true = [] → get_last_rollover_seq fp ss = -1) ∧
    (∀ b ∈ get_existing_backups fp ss true,
      (seqOf b : Int) ≤ get_last_rollover_seq fp ss) ∧
    (get_last_rollover_seq fp ss = -1 ∨
      ∃ b ∈ get_existing_backups fp ss true,
        get_last_rollover_seq fp ss = (seqOf b : Int)) ∧
    init_next_rollover_seq fp ss = get_last_rollover_seq fp ss + 1 ∧
    0 ≤ init_next_rollover_seq fp ss ∧
    ∀ b ∈ get_existing_backups fp ss true,
      (seqOf b : Int) < init_next_rollover_seq fp ss := by
  have hsorted := get_existing_backups_true_sorted fp ss
  have hmax : ∀ b ∈ get_existing_backups fp ss true,
      (seqOf b : Int) ≤ get_last_rollover_seq fp ss := by
    intro b hb
    cases hlast : (get_existing_backups fp ss true).getLast? with
    | none =>
      rw [List.getLast?_eq_none_iff] at hlast
      rw [hlast] at hb
      simp at hb
    | some m =>
      rw [gls_of_getLast?_some fp ss m hlast]
      exact_mod_cast key_le_of_getLast?_of_sorted seqOf _ hsorted m hlast b hb
  have hinit : init_next_rollover_seq fp ss =
      get_last_rollover_seq fp ss + 1 := by
    unfold init_next_rollover_seq
    have := gls_ge_neg_one fp ss
    exact max_eq_left (by omega)
  refine ⟨?_, hmax, ?_, hinit, ?_, ?_⟩
  · intro h
    apply gls_of_getLast?_none
    rw [h]
    rfl
  · cases hlast : (get_existing_backups fp ss true).getLast? with
    | none => exact Or.inl (gls_of_getLast?_none fp ss hlast)
    | some m =>
      exact Or.inr ⟨m, mem_of_getLast?_some _ m hlast,
        gls_of_getLast?_some fp ss m hlast⟩
  · rw [hinit]
    have := gls_ge_neg_one fp ss
    omega
  · intro b hb
    rw [hinit]
    have := hmax b hb
    omega

/-- C4 witness: seeding at a concrete directory listing. -/
theorem seq_counter_seeding_witness :
    init_next_rollover_seq ["test", "bin"]
        [["test", "0", "bin"], ["test", "2", "bin"]] =
      get_last_rollover_seq ["test", "bin"]
        [["test", "0", "bin"], ["test", "2", "bin"]] + 1 ∧
    0 ≤ init_next_rollover_seq ["test", "bin"]
        [["test", "0", "bin"], ["test", "2", "bin"]] :=
  ⟨(seq_counter_seeding ["test", "bin"]
      [["test", "0", "bin"], ["test", "2", "bin"]]).2.2.2.1,
   (seq_counter_seeding ["test", "bin"]
      [["test", "0", "bin"], ["test", "2", "bin"]]).2.2.2.2.1⟩

/-- C5: backup enumeration keeps exactly the siblings that match the
glob `stem.*suffix` and whose trailing dot-segment before the suffix is
all digits, with and without sorting; the sorted variant is ordered
ascending by the integer value of that segment, so `.2.` sorts before
`.10.` even though it is lexicographically larger. -/
theorem backups_enumeration (fp : FileName) (ss : List FileName) :
    (∀ b, b ∈ get_existing_backups fp ss false ↔
      b ∈ ss ∧ globMatches fp b = true ∧ isdigitStr (stemLastSeg b) = true) ∧
    (∀ b, b ∈ get_existing_backups fp ss true ↔
      b ∈ ss ∧ globMatches fp b = true ∧ isdigitStr (stemLastSeg b) = true) ∧
    (get_existing_backups fp ss true).Pairwise (fun a b => seqOf a ≤ seqOf b) ∧
    get_existing_backups ["log", "bin"]
      [["log", "10", "bin"], ["log", "2", "bin"]] true =
      [["log", "2", "bin"], ["log", "10", "bin"]] := by
  refine ⟨?_, ?_, get_existing_backups_true_sorted fp ss, by decide⟩
  · intro b
    rw [mem_get_existing_backups fp ss false b, Bool.and_eq_true]
  · intro b
    rw [mem_get_existing_backups fp ss true b, Bool.and_eq_true]

/-- C5 witness: the enumeration picks the numeric siblings of a
concrete listing. -/
theorem backups_enumeration_witness :
    ["test", "0", "bin"] ∈ get_existing_backups ["test", "bin"]
        [["test", "0", "bin"], ["test", "a", "bin"]] false ↔
      ["test", "0", "bin"] ∈
          ([["test", "0", "bin"], ["test", "a", "bin"]] : List FileName) ∧
        globMatches ["test", "bin"] ["test", "0", "bin"] = true ∧
        isdigitStr (stemLastSeg ["test", "0", "bin"]) = true :=
  (backups_enumeration ["test", "bin"]
    [["test", "0", "bin"], ["test", "a", "bin"]]).1 ["test", "0", "bin"]

/-- C6: serialization produces exactly a 4-byte big-endian unsigned
length field followed by that many bytes of the UTF-8 encoding with
replacement (a surrogate encodes to the question-mark byte rather than
raising), and every file a fresh logger produces is a concatenation of
such frames with no other bytes. -/
theorem frame_format (p : PyStr) (hfit : fits p) (M : Nat) (ps : List PyStr)
    (hv : ∀ q ∈ ps, fits q) :
    serialize p = Except.ok (toBytesBE 4 (encodeStr p).length ++ encodeStr p) ∧
    (toBytesBE 4 (encodeStr p).length).length = 4 ∧
    fromBytesBE (toBytesBE 4 (encodeStr p).length) = (encodeStr p).length ∧
    (∀ c : Nat, isSurrogate c = true → encodeCp c = [0x3F]) ∧
    ∀ st, writeAll (freshLog M) ps = Except.ok st →
      ∀ f ∈ st.backups.map Prod.snd ++ [st.active],
        ∃ qs : List PyStr, f = bytesOfPayloads qs := by
  refine ⟨serialize_ok p hfit, length_toBytesBE 4 _,
    fromBytesBE_toBytesBE 4 _ hfit, ?_, ?_⟩
  · intro c hc
    simp [encodeCp, hc]
  · intro st hw f hf
    obtain ⟨st2, hw2, hInv⟩ := writeAll_ok ps (freshLog M) [] (inv_freshLog M) hv
    rw [hw2, Except.ok.injEq] at hw
    subst hw
    obtain ⟨bp, ap, hmap, hact, _⟩ := hInv.hsplit
    rcases List.mem_append.mp hf with hf | hf
    · rw [hmap] at hf
      obtain ⟨qs, _, rfl⟩ := List.mem_map.mp hf
      exact ⟨qs, rfl⟩
    · rcases List.mem_singleton.mp hf with rfl
      exact ⟨ap, hact⟩

/-- C6 witness: the frame of a concrete payload. -/
theorem frame_format_witness :
    serialize [0x68] =
      Except.ok (toBytesBE 4 (encodeStr [0x68]).length ++ encodeStr [0x68]) ∧
    (toBytesBE 4 (encodeStr [0x68]).length).length = 4 :=
  ⟨(frame_format [0x68] (by decide) 1 [] (by decide)).1,
   (frame_format [0x68] (by decide) 1 [] (by decide)).2.1⟩

/-- C7: from a closed state, no sequence of public operations (write,
read, close) brings the logger back to open, and every write from the
closed state raises instead of reaching the rollover reopen path; only
constructing a new instance resumes writing. -/
theorem closed_terminal (st : LogState) (ops : List PubOp)
    (hc : st.is_closed = true) :
    (applyOps st ops).is_closed = true ∧
    ∀ p : PyStr, ∃ e, write st p = Except.error e :=
  ⟨applyOps_closed ops st hc, fun p => write_from_closed_raises st p hc⟩

/-- C7 witness: a closed logger stays closed under a concrete sequence
of public calls. -/
theorem closed_terminal_witness :
    (applyOps (close (freshLog 1))
      [PubOp.readOp, PubOp.writeOp [0x68], PubOp.closeOp,
        PubOp.writeOp [0x69]]).is_closed = true :=
  (closed_terminal (close (freshLog 1))
    [PubOp.readOp, PubOp.writeOp [0x68], PubOp.closeOp,
      PubOp.writeOp [0x69]] rfl).1

/-- C8 (amended): once closed, every subsequent write whose payload
encoding fits the 4-byte length field fails with the explicit closed
error (`RuntimeError`), never silently and never as an I/O error, and
closing an already-closed instance is a no-op that never raises;
oversized payloads instead fail with the overflow error even when
closed, because serialization runs before the closed check. -/
theorem write_after_close (st : LogState) (p : PyStr) (hc : st.is_closed = true)
    (hfit : fits p) :
    write st p = Except.error WErr.closedErr ∧
    close st = st ∧ ∀ st2 : LogState, close (close st2) = close st2 :=
  ⟨write_closed st p hc hfit, close_of_closed st hc, fun _ => rfl⟩

/-- C8 witness: write-after-close at a concrete state and payload. -/
theorem write_after_close_witness :
    write (close (freshLog 1)) [0x68] = Except.error WErr.closedErr :=
  (write_after_close (close (freshLog 1)) [0x68] rfl (by decide)).1

/-- C8 counterexample: on a closed logger, a payload of 2^32 ASCII
characters makes `write` raise `OverflowError` from the length prefix
conversion, not the closed `RuntimeError`, because `__serialize` runs
before the closed check. -/
theorem write_after_close_cex :
    (close (freshLog 1)).is_closed = true ∧
    write (close (freshLog 1)) (List.replicate (2 ^ 32) 97) =
      Except.error WErr.overflowErr ∧
    WErr.overflowErr ≠ WErr.closedErr := by
  refine ⟨rfl, ?_, by decide⟩
  have hnf : ¬ fits (List.replicate (2 ^ 32) 97) := by
    unfold fits
    rw [encLen_replicate_a]
    norm_num [length_bytesize]
  exact write_overflow _ _ hnf

/-- C9 (amended): under the lock-atomicity the `RLock` provides, any
schedule of N threads each issuing K writes executes as an
interleaving `ws` of the per-thread payload sequences; when every
payload is a surrogate-free scalar string that fits the length field,
all writes succeed, `read` recovers exactly `N * K` frames, and each
thread's own payloads appear in its submission order (its sequence is a
sublist of the read sequence), while the cross-thread interleaving is
unconstrained. -/
theorem concurrent_writes (threads : List (List PyStr)) (K M : Nat)
    (ws : List PyStr) (_hM : 0 < M) (hI : Interleaving threads ws)
    (hK : ∀ t ∈ threads, t.length = K)
    (hv : ∀ p ∈ ws, scalarStr p ∧ fits p) :
    ∃ st, writeAll (freshLog M) ws = Except.ok st ∧ read st = ws ∧
      (read st).length = threads.length * K ∧
      ∀ t ∈ threads, t.Sublist (read st) := by
  obtain ⟨st, hw, hInv⟩ := writeAll_ok ws (freshLog M) [] (inv_freshLog M)
    (fun p hp => (hv p hp).2)
  have hInv2 : Inv st ws := (List.nil_append ws) ▸ hInv
  obtain ⟨hread, _⟩ := read_of_inv st ws hInv2 hv
  refine ⟨st, hw, hread, ?_, ?_⟩
  · rw [hread, interleaving_length threads ws hI, sum_map_length_const threads K hK]
  · intro t ht
    rw [hread]
    exact interleaving_sublist threads ws hI t ht

/-- C9 witness: two threads with one write each, on a concrete
interleaving. -/
theorem concurrent_writes_witness :
    ∃ st, writeAll (freshLog 100) [[0x61], [0x62]] = Except.ok st ∧
      read st = [[0x61], [0x62]] ∧
      (read st).length = 2 * 1 ∧
      ∀ t ∈ [[[0x61]], [[0x62]]], t.Sublist (read st) :=
  concurrent_writes [[[0x61]], [[0x62]]] 1 100 [[0x61], [0x62]] (by decide)
    (Interleaving.step _ 0 [0x61] [] _ rfl
      (Interleaving.step _ 1 [0x62] [] _ rfl
        (Interleaving.nil _ (by decide))))
    (by decide) (by decide)

/-- C9 counterexample: one thread issuing one write of the lone
surrogate U+D800 is a valid schedule, all frames are recovered, but the
thread's own payload does not appear in the read sequence: the frame
holds the replacement question mark instead. -/
theorem concurrent_writes_cex :
    Interleaving [[[0xD800]]] [[0xD800]] ∧
    writeAll (freshLog 10) [[0xD800]] =
      Except.ok
        { max_file_size := 10, is_closed := false, next_rollover_seq := 0,
          backups := [], active := [0, 0, 0, 1, 0x3F] } ∧
    read
        { max_file_size := 10, is_closed := false, next_rollover_seq := 0,
          backups := [], active := [0, 0, 0, 1, 0x3F] } = [[0x3F]] ∧
    ¬ ([[0xD800]] : List (List Nat)).Sublist [[0x3F]] := by
  refine ⟨?_, rfl, ?_, ?_⟩
  · exact Interleaving.step _ 0 [0xD800] [] _ rfl (Interleaving.nil _ (by decide))
  · have h63 : deserialize [0, 0, 0, 1, 0x3F] = ([[0x3F]], none) := by
      have h := deserialize_single [0x3F] (by decide) (by decide)
      rwa [show frameOf [0x3F] = [0, 0, 0, 1, 0x3F] from rfl] at h
    have hfiles : filesOf
        { max_file_size := 10, is_closed := false, next_rollover_seq := 0,
          backups := [], active := [0, 0, 0, 1, 0x3F] } =
        [[0, 0, 0, 1, 0x3F]] := rfl
    rw [read, hfiles]
    simp [h63]
  · intro h
    have hmem : [0xD800] ∈ ([[0x3F]] : List (List Nat)) :=
      h.subset (List.mem_singleton_self _)
    simp at hmem

/-- C10: a payload whose UTF-8 encoding needs 2^32 bytes or more makes
`write` raise the overflow error from the length prefix conversion
before the lock is acquired and before any byte reaches the file: the
state is unchanged, the log stays open, a subsequent fitting write
succeeds, and every payload encoding strictly shorter than 2^32 bytes
serializes successfully. -/
theorem overflow_before_lock (st : LogState) (p q : PyStr)
    (hbig : 256 ^ length_bytesize ≤ (encodeStr p).length)
    (hq : fits q) (hopen : st.is_closed = false) :
    write st p = Except.error WErr.overflowErr ∧
    applyOp st (PubOp.writeOp p) = st ∧
    (∃ st2, write st q = Except.ok st2) ∧
    ∀ r : PyStr, fits r → serialize r = Except.ok (frameOf r) := by
  have hnf : ¬ fits p := by
    rw [fits]
    omega
  exact ⟨write_overflow st p hnf, applyOp_write_overflow st p hnf,
    write_open_ok st q hopen hq, fun r hr => serialize_ok r hr⟩

/-- C10 witness: the oversized payload of 2^32 ASCII characters on a
fresh open logger. -/
theorem overflow_before_lock_witness :
    write (freshLog 1) (List.replicate (2 ^ 32) 97) =
      Except.error WErr.overflowErr ∧
    applyOp (freshLog 1) (PubOp.writeOp (List.replicate (2 ^ 32) 97)) =
      freshLog 1 :=
  have hbig : 256 ^ length_bytesize ≤
      (encodeStr (List.replicate (2 ^ 32) 97)).length := by
    rw [encLen_replicate_a]
    norm_num [length_bytesize]
  ⟨(overflow_before_lock (freshLog 1) (List.replicate (2 ^ 32) 97) [0x68]
      hbig (by decide) rfl).1,
   (overflow_before_lock (freshLog 1) (List.replicate (2 ^ 32) 97) [0x68]
      hbig (by decide) rfl).2.1⟩

end SimpleLogger
